import Mathlib

/-!
Verification of the Merkle-tree repository (CLI tree builder / proof engine and
the change-gated sync service) against its specification.

The JavaScript source is embedded shallowly:

* `hashData` / `hashFile` (lib/hashing.js) are SHA-256 digests of strings or
  file contents, returned as lowercase hex.  The embedding abstracts them as
  function parameters `hashData itemHash : String → String`; every theorem is
  proved for all such functions, in particular for SHA-256.
* `buildMerkleTree` (merkle-tree-cli/lib/merkleTree.js) builds the level array
  bottom-up; the `while` loop is rendered as a fuel-indexed recursion
  (`buildLevelsFuel`) with fuel equal to the leaf count, which is always
  sufficient because a pairing pass strictly shrinks a level of length ≥ 2.
* `generateMerkleProof` / `verifyMerkleProof` (lib/proof.js) are pure list
  programs and are transcribed directly.
* The stateful services (scheduler, redis cache, change-gated sync, S3 store)
  are modelled as explicit state-passing functions; effects of collaborators
  (the redis client, the backend store) are supplied as boolean/oracle
  parameters describing whether the collaborator call succeeds.
-/

namespace MerkleRepo

/-- A tree node as produced by `buildMerkleTree` (merkleTree.js): a leaf object
carries its `hash` and the original item (the `data`/`filePath` field); an
interior object carries its `hash` and its two child references `left` and
`right`. -/
inductive Node where
  | leaf (hash : String) (item : String)
  | interior (hash : String) (left right : Node)
deriving DecidableEq, Repr

/-- The `hash` field shared by both node shapes. -/
def Node.hash : Node → String
  | .leaf h _ => h
  | .interior h _ _ => h

/-- Stand-in for a JavaScript out-of-bounds array read; never reached on the
executions the theorems describe. -/
def dummyNode : Node := .leaf "" ""

/-- JS-style total indexing `level[i]` into a level. -/
def nodeAt (lvl : List Node) (i : Nat) : Node := lvl.getD i dummyNode

/-- One pass of `buildMerkleTree`'s pairing loop (merkleTree.js lines 27–44):
for `i = 0, 2, 4, …`, `left = currentLevel[i]`, `right = currentLevel[i+1]` if
in bounds else `currentLevel[i]` itself, and the parent is
`hashData(left.hash + right.hash)` with children `left`, `right`. -/
def buildLevel (hashData : String → String) : List Node → List Node
  | [] => []
  | [l] => [.interior (hashData (l.hash ++ l.hash)) l l]
  | l :: r :: rest =>
      .interior (hashData (l.hash ++ r.hash)) l r :: buildLevel hashData rest

/-- Fuel-indexed driver of the `while (currentLevel.length > 1)` loop.  Fuel at
least the current level length always suffices (`buildLevelsFuel_congr`). -/
def buildLevelsFuel (hashData : String → String) : Nat → List Node → List (List Node)
  | 0, cur => [cur]
  | fuel + 1, cur =>
      if cur.length ≤ 1 then [cur]
      else cur :: buildLevelsFuel hashData fuel (buildLevel hashData cur)

/-- The `treeLevels` array accumulated by `buildMerkleTree`: the leaf level
followed by each successive pairing pass, ending at the single-node level. -/
def buildLevels (hashData : String → String) (cur : List Node) : List (List Node) :=
  buildLevelsFuel hashData cur.length cur

/-- The object returned by `buildMerkleTree`.  On empty (or missing) input the
function returns `root` and `treeLevels` both null and no `leafCount` field. -/
structure BuildResult where
  root : Option Node
  treeLevels : Option (List (List Node))
  leafCount : Option Nat
deriving DecidableEq, Repr

/-- The last entry of the levels array, i.e. `currentLevel` when the pairing
loop exits. -/
def lastLevel : List (List Node) → List Node
  | [] => []
  | [l] => l
  | _ :: l2 :: rest => lastLevel (l2 :: rest)

/-- `buildMerkleTree(items)` (merkleTree.js lines 9–51): empty input yields the
null result; otherwise hash every item into a leaf (via `hashFile` in files
mode, `hashData` in data mode — both abstracted as `itemHash`), run the pairing
loop, and return `currentLevel[0]` as the root together with all levels and the
leaf count. -/
def buildMerkleTree (hashData itemHash : String → String) (items : List String) :
    BuildResult :=
  if items.isEmpty then { root := none, treeLevels := none, leafCount := none }
  else
    let nodes := items.map fun item => Node.leaf (itemHash item) item
    let levels := buildLevels hashData nodes
    { root := (lastLevel levels).head?
      treeLevels := some levels
      leafCount := some items.length }

/-- A step of a Merkle proof: the sibling hash and the side (the JS strings
`"left"` / `"right"`) on which the sibling sits. -/
structure ProofStep where
  hash : String
  position : String
deriving DecidableEq, Repr

/-- One iteration of `generateMerkleProof`'s level walk (proof.js lines 39–57):
`isRightNode = currentIndex % 2`; the sibling index is `currentIndex - 1` for a
right node and `currentIndex + 1` for a left node; if the sibling index is in
bounds the emitted step carries the sibling's hash, otherwise (the unpaired
last node of an odd level) the node's own hash; position is `"left"` when the
current node is a right child, `"right"` otherwise. -/
def mkStep (lvl : List Node) (currentIndex : Nat) : ProofStep :=
  let isRightNode := currentIndex % 2 == 1
  let siblingIndex := if isRightNode then currentIndex - 1 else currentIndex + 1
  if siblingIndex < lvl.length then
    { hash := (nodeAt lvl siblingIndex).hash
      position := if isRightNode then "left" else "right" }
  else
    { hash := (nodeAt lvl currentIndex).hash
      position := if isRightNode then "left" else "right" }

/-- The proof accumulation loop: one step per level except the last
(`for level = 0; level < treeLevels.length - 1`), halving the index after each
level. -/
def proofSteps : List (List Node) → Nat → List ProofStep
  | [], _ => []
  | [_], _ => []
  | lvl :: lvl2 :: rest, currentIndex =>
      mkStep lvl currentIndex :: proofSteps (lvl2 :: rest) (currentIndex / 2)

/-- The index search of `generateMerkleProof` (proof.js lines 24–31): scan the
items in order and stop at the first whose hash equals the target hash. -/
def findHashIndex (itemHash : String → String) (targetHash : String) :
    List String → Option Nat
  | [] => none
  | item :: rest =>
      if itemHash item == targetHash then some 0
      else (findHashIndex itemHash targetHash rest).map (· + 1)

/-- `generateMerkleProof(target, items, treeLevels)` (proof.js lines 12–60):
null on empty items; otherwise hash the target, find the first item with an
equal hash (null when none), and walk the levels from that index. -/
def generateMerkleProof (itemHash : String → String) (target : String)
    (items : List String) (treeLevels : List (List Node)) : Option (List ProofStep) :=
  if items.isEmpty then none
  else
    match findHashIndex itemHash (itemHash target) items with
    | none => none
    | some index => some (proofSteps treeLevels index)

/-- One reduction step of `verifyMerkleProof`: sibling-then-current when the
step's position is `"left"`, current-then-sibling otherwise. -/
def verifyStep (hashData : String → String) (currentHash : String)
    (step : ProofStep) : String :=
  if step.position = "left" then hashData (step.hash ++ currentHash)
  else hashData (currentHash ++ step.hash)

/-- `verifyMerkleProof(target, proof, merkleRoot)` (proof.js lines 70–87):
start from the target's hash, reduce through the steps, compare with the
expected root. -/
def verifyMerkleProof (hashData itemHash : String → String) (target : String)
    (proof : List ProofStep) (merkleRoot : String) : Bool :=
  proof.foldl (verifyStep hashData) (itemHash target) == merkleRoot

/-- The CLI caller's empty-input guard (`handleCli`): the Empty failure is
raised by the caller, not by the builder. -/
def handleCliCheck (dataBlocks : List String) : Option String :=
  if dataBlocks.length = 0 then some "No data blocks or files provided" else none

/-- The service orchestrator's empty-scan guard (`treeBuilderService.buildAndSync`). -/
def scanFilesCheck (sourceDirectory : String) (files : List String) : Option String :=
  if files.length = 0 then
    some ("No files found in source directory: " ++ sourceDirectory)
  else none

/-- Hash-chain invariant of an interior node: its hash is `hashData` of the
concatenation of its children's hashes, recursively. -/
def Node.wellHashed (hashData : String → String) : Node → Prop
  | .leaf _ _ => True
  | .interior h l r =>
      h = hashData (l.hash ++ r.hash) ∧ wellHashed hashData l ∧ wellHashed hashData r

/-! ## Service models -/

/-- The mutable module state of schedulerService.js relevant to single-flight
builds. -/
structure SchedulerState where
  isRunning : Bool
  isBuildInProgress : Bool
  buildCount : Nat
  lastBuildAttempt : Option Nat
deriving DecidableEq, Repr

/-- `executeBuild` (schedulerService.js lines 81–109) as a state transition:
if a build is in progress the tick returns immediately after a warning — state
untouched, `buildAndSync` not invoked, nothing queued.  Otherwise the guard is
taken, the counters are updated and `buildAndSync` runs; the `finally` clears
the flag, so the post-state has it false again.  The second component records
whether `buildAndSync` was invoked. -/
def executeBuild (st : SchedulerState) (now : Nat) : SchedulerState × Bool :=
  if st.isBuildInProgress then (st, false)
  else
    ({ st with isBuildInProgress := false
               buildCount := st.buildCount + 1
               lastBuildAttempt := some now }, true)

/-- `triggerManualBuild` (schedulerService.js lines 111–118): fail fast with the
Busy error when a build is in progress, otherwise run `executeBuild`. -/
def triggerManualBuild (st : SchedulerState) (now : Nat) :
    Except String (SchedulerState × Bool) :=
  if st.isBuildInProgress then .error "Build already in progress"
  else .ok (executeBuild st now)

/-- Outcome of a call into the underlying redis client: a returned value or a
raised error. -/
inductive ClientOutcome (α : Type) where
  | ok (value : α)
  | throws
deriving DecidableEq, Repr

/-- `redisService.get` (redisService.js lines 96–114): null when disconnected
or unconfigured; the client call's result otherwise, with any raised error
caught and converted to null.  The JSON envelope parse is absorbed into the
returned value (a parse failure raises inside the same `try` and is likewise
caught).  The model is a total function: no exception can propagate. -/
def redisGet (isConnected hasClient : Bool)
    (client : ClientOutcome (Option String)) : Option String :=
  if !isConnected || !hasClient then none
  else
    match client with
    | .ok (some value) => some value
    | .ok none => none
    | .throws => none

/-- `redisService.set` (redisService.js lines 116–133): false when disconnected
or unconfigured; true on a successful client write; any raised error is caught
and converted to false. -/
def redisSet (isConnected hasClient : Bool) (client : ClientOutcome Unit) : Bool :=
  if !isConnected || !hasClient then false
  else
    match client with
    | .ok _ => true
    | .throws => false

/-- Joint state of the storage backend and the cache as seen by `syncTree`
(s3Service.js storage-abstraction variant).  `backendTrees` lists the committed
root hashes newest first (the relational insert / S3 latest pointer);
`cacheLatest` is the value a cache read of `merkle:latest_root_hash` returns
when the cache is up; `cacheMeta` lists the root hashes with cached
per-tree metadata. -/
structure SyncState where
  backendTrees : List String
  cacheLatest : Option String
  cacheMeta : List String
deriving DecidableEq, Repr

/-- The cache-then-backend lookup `getLatestRootHash`: consult the cache first
(a down cache yields a miss), fall back to the backend's newest root, and cache
that result when found and the cache is up.  `cacheUp` says whether the cache
tier is reachable for the duration of the call. -/
def getLatestRootHashSync (st : SyncState) (cacheUp : Bool) :
    Option String × SyncState :=
  match (if cacheUp then st.cacheLatest else none) with
  | some h => (some h, st)
  | none =>
      match st.backendTrees.head? with
      | some h => (some h, if cacheUp then { st with cacheLatest := some h } else st)
      | none => (none, st)

/-- The object `syncTree` resolves with.  An unchanged result carries
`reason = "unchanged"` and no previous hash; a written result carries the
previous latest hash. -/
structure SyncResult where
  written : Bool
  rootHash : String
  reason : Option String
  previousHash : Option String
deriving DecidableEq, Repr

/-- `syncTree(treeData)` (s3Service.js lines 960–1039): reject a missing root
hash before touching anything; look up the latest root cache-first; return the
unchanged result without writing when it equals the new root; otherwise store
through the backend (`storeOk` abstracts whether `storeTreeData` / the
relational insert succeeds — on failure the error propagates and the
post-store cache updates are skipped), then set the latest-root and metadata
cache entries (skipped when the cache is down).  `leafCount` is carried as the
code carries it; no validation is applied to it. -/
def syncTree (st : SyncState) (rootHash? : Option String) (leafCount : Nat)
    (storeOk cacheUp : Bool) : Except String SyncResult × SyncState :=
  match rootHash? with
  | none => (.error "Invalid tree data: missing root hash", st)
  | some rootHash =>
      let lookup := getLatestRootHashSync st cacheUp
      if lookup.1 = some rootHash then
        (.ok { written := false, rootHash := rootHash, reason := some "unchanged"
               previousHash := none }, lookup.2)
      else if storeOk then
        let st2 := { lookup.2 with backendTrees := rootHash :: lookup.2.backendTrees }
        let st3 :=
          if cacheUp then
            { st2 with cacheLatest := some rootHash, cacheMeta := rootHash :: st2.cacheMeta }
          else st2
        (.ok { written := true, rootHash := rootHash, reason := none
               previousHash := lookup.1 }, st3)
      else
        (.error "Failed to sync tree", lookup.2)

/-- An object written to the S3 bucket: its key and the item count recorded in
its user metadata. -/
structure S3Object where
  key : String
  itemCount : Nat
deriving DecidableEq, Repr

/-- The S3 bucket contents, newest write first. -/
structure S3State where
  objects : List S3Object
deriving DecidableEq, Repr

/-- `storeTreeData(rootHash, treeData, metadata)` (s3Service.js lines 68–133):
the only guard is the connection check; then the tree body, the root-metadata
record and the latest-root pointer are written in that order.  No validation
of `metadata.itemCount` is performed anywhere in the function. -/
def storeTreeData (isConnected : Bool) (rootHash : String) (itemCount : Nat)
    (st : S3State) : Except String (S3State × String) :=
  if !isConnected then .error "S3 service not connected"
  else
    let treeObjectKey := "trees/" ++ rootHash ++ ".json"
    let metadataObjectKey := "metadata/roots/" ++ rootHash ++ ".json"
    .ok (⟨⟨"metadata/latest-root.json", itemCount⟩ :: ⟨metadataObjectKey, itemCount⟩ ::
          ⟨treeObjectKey, itemCount⟩ :: st.objects⟩, rootHash)

/-- Safety invariant of the cache: the cached latest root is one the backend
has accepted. -/
def cacheSound (st : SyncState) : Prop :=
  ∀ h, st.cacheLatest = some h → h ∈ st.backendTrees

/-- Concrete stand-in hash used only for evaluated witnesses. -/
def demoHash (s : String) : String := "h(" ++ s ++ ")"

/-! ## Structural lemmas about the pairing loop -/

/-- A pairing pass over `n` nodes produces `⌈n/2⌉ = (n+1)/2` nodes. -/
theorem buildLevel_length (hashData : String → String) :
    ∀ cur : List Node, (buildLevel hashData cur).length = (cur.length + 1) / 2
  | [] => by simp [buildLevel]
  | [_] => by simp [buildLevel]
  | _ :: _ :: rest => by
    simp only [buildLevel, List.length_cons, buildLevel_length hashData rest]
    omega

/-- A pairing pass keeps a level non-empty. -/
theorem buildLevel_ne_nil (hashData : String → String) (cur : List Node)
    (h : cur ≠ []) : buildLevel hashData cur ≠ [] := by
  have := buildLevel_length hashData cur
  intro hcon
  rw [hcon] at this
  cases cur with
  | nil => exact h rfl
  | cons a l => simp at this; omega

/-- Fuel irrelevance: any fuel of at least the current level length drives the
loop to completion, so all such fuels agree. -/
theorem buildLevelsFuel_congr (hashData : String → String) :
    ∀ (m n : Nat) (cur : List Node), cur.length ≤ m → cur.length ≤ n →
      buildLevelsFuel hashData m cur = buildLevelsFuel hashData n cur := by
  intro m
  induction m with
  | zero =>
    intro n cur hm _
    have hnil : cur = [] := List.eq_nil_of_length_eq_zero (by omega)
    subst hnil
    cases n with
    | zero => rfl
    | succ n => simp [buildLevelsFuel]
  | succ m ih =>
    intro n cur hm hn
    cases n with
    | zero =>
      have hnil : cur = [] := List.eq_nil_of_length_eq_zero (by omega)
      subst hnil
      simp [buildLevelsFuel]
    | succ n =>
      simp only [buildLevelsFuel]
      by_cases h1 : cur.length ≤ 1
      · simp [h1]
      · have hlen := buildLevel_length hashData cur
        simp only [h1, if_false]
        rw [ih n (buildLevel hashData cur) (by omega) (by omega)]

/-- Unfolding of the loop when it exits at once. -/
theorem buildLevels_base (hashData : String → String) (cur : List Node)
    (h : cur.length ≤ 1) : buildLevels hashData cur = [cur] := by
  unfold buildLevels
  cases cur with
  | nil => rfl
  | cons a l =>
    cases l with
    | nil => rfl
    | cons b m => simp at h

/-- Unfolding of one loop iteration. -/
theorem buildLevels_step (hashData : String → String) (cur : List Node)
    (h : 1 < cur.length) :
    buildLevels hashData cur = cur :: buildLevels hashData (buildLevel hashData cur) := by
  unfold buildLevels
  cases hl : cur.length with
  | zero => omega
  | succ n =>
    simp only [buildLevelsFuel]
    rw [if_neg (by omega)]
    have hlen := buildLevel_length hashData cur
    exact congrArg _ (buildLevelsFuel_congr hashData n _ _ (by omega) le_rfl)

/-- Induction along the loop structure of `buildLevels`. -/
theorem buildLevels_rec (hashData : String → String) {motive : List Node → Prop}
    (base : ∀ cur : List Node, cur.length ≤ 1 → motive cur)
    (step : ∀ cur : List Node, 1 < cur.length →
      motive (buildLevel hashData cur) → motive cur) :
    ∀ cur, motive cur := by
  have key : ∀ (n : Nat) (cur : List Node), cur.length ≤ n → motive cur := by
    intro n
    induction n with
    | zero => intro cur h; exact base cur (by omega)
    | succ n ih =>
      intro cur h
      by_cases h1 : cur.length ≤ 1
      · exact base cur h1
      · have hlen := buildLevel_length hashData cur
        exact step cur (by omega) (ih _ (by omega))
  exact fun cur => key cur.length cur le_rfl

/-- The levels array always starts with the level it was started from. -/
theorem buildLevels_cons (hashData : String → String) (cur : List Node) :
    ∃ t, buildLevels hashData cur = cur :: t := by
  by_cases h : cur.length ≤ 1
  · exact ⟨[], buildLevels_base hashData cur h⟩
  · exact ⟨_, buildLevels_step hashData cur (by omega)⟩

theorem buildLevels_ne_nil (hashData : String → String) (cur : List Node) :
    buildLevels hashData cur ≠ [] := by
  obtain ⟨t, ht⟩ := buildLevels_cons hashData cur
  simp [ht]

/-- `lastLevel` of a cons with a non-empty tail ignores the head. -/
theorem lastLevel_cons (lvl : List Node) (t : List (List Node)) (h : t ≠ []) :
    lastLevel (lvl :: t) = lastLevel t := by
  cases t with
  | nil => exact absurd rfl h
  | cons l2 rest => rfl

/-- The final level of the loop is never empty when the loop starts non-empty. -/
theorem lastLevel_buildLevels_ne_nil (hashData : String → String) :
    ∀ cur : List Node, cur ≠ [] → lastLevel (buildLevels hashData cur) ≠ [] := by
  refine buildLevels_rec hashData ?_ ?_
  · intro cur h hne
    rw [buildLevels_base hashData cur h]
    simpa [lastLevel] using hne
  · intro cur h ih hne
    rw [buildLevels_step hashData cur h,
      lastLevel_cons _ _ (buildLevels_ne_nil hashData _)]
    exact ih (buildLevel_ne_nil hashData cur hne)

/-! ## Index correspondence between a level and the next -/

theorem nodeAt_cons_zero (a : Node) (l : List Node) : nodeAt (a :: l) 0 = a :=
  List.getD_cons_zero

theorem nodeAt_cons_succ (a : Node) (l : List Node) (n : Nat) :
    nodeAt (a :: l) (n + 1) = nodeAt l n :=
  List.getD_cons_succ

theorem nodeAt_cons_cons (a b : Node) (l : List Node) (n : Nat) :
    nodeAt (a :: b :: l) (n + 2) = nodeAt l n := by
  rw [show n + 2 = n + 1 + 1 from rfl, nodeAt_cons_succ, nodeAt_cons_succ]

/-- The right child the pairing pass picks above position `k`: the next node
when it exists, the node itself otherwise. -/
def pairRight (cur : List Node) (k : Nat) : Node :=
  if k + 1 < cur.length then nodeAt cur (k + 1) else nodeAt cur k

/-- The parent node the pairing pass forms above (even) position `k`. -/
def pairParent (hashData : String → String) (cur : List Node) (k : Nat) : Node :=
  .interior (hashData ((nodeAt cur k).hash ++ (pairRight cur k).hash))
    (nodeAt cur k) (pairRight cur k)

theorem pairRight_cons_cons (a b : Node) (l : List Node) (k : Nat) :
    pairRight (a :: b :: l) (k + 2) = pairRight l k := by
  unfold pairRight
  have hcond : (k + 2 + 1 < (a :: b :: l).length) ↔ (k + 1 < l.length) := by
    simp only [List.length_cons]; omega
  by_cases hc : k + 1 < l.length
  · rw [if_pos hc, if_pos (hcond.mpr hc),
      show k + 2 + 1 = k + 1 + 2 from rfl, nodeAt_cons_cons]
  · rw [if_neg hc, if_neg (fun hx => hc (hcond.mp hx)), nodeAt_cons_cons]

theorem pairParent_cons_cons (hashData : String → String) (a b : Node)
    (l : List Node) (k : Nat) :
    pairParent hashData (a :: b :: l) (k + 2) = pairParent hashData l k := by
  unfold pairParent
  rw [nodeAt_cons_cons, pairRight_cons_cons]

/-- The node at position `j` of the next level is the parent formed above
position `2j` of the current level. -/
theorem buildLevel_nodeAt (hashData : String → String) :
    ∀ (cur : List Node) (j : Nat), 2 * j < cur.length →
      nodeAt (buildLevel hashData cur) j = pairParent hashData cur (2 * j)
  | [], j, h => by simp at h
  | [a], j, h => by
    have hj : j = 0 := by simp only [List.length_cons, List.length_nil] at h; omega
    subst hj
    show nodeAt [Node.interior (hashData (a.hash ++ a.hash)) a a] 0 = _
    rw [nodeAt_cons_zero]
    unfold pairParent pairRight
    rw [if_neg (by simp)]
    rfl
  | a :: b :: rest, 0, h => by
    show nodeAt (Node.interior (hashData (a.hash ++ b.hash)) a b
        :: buildLevel hashData rest) 0 = _
    rw [nodeAt_cons_zero]
    unfold pairParent pairRight
    rw [if_pos (by simp)]
    rw [show (0 : Nat) + 1 = 0 + 1 from rfl, nodeAt_cons_zero, nodeAt_cons_succ,
      nodeAt_cons_zero]
  | a :: b :: rest, j + 1, h => by
    have h' : 2 * j < rest.length := by
      simp only [List.length_cons] at h; omega
    have ih := buildLevel_nodeAt hashData rest j h'
    have lhs_eq : nodeAt (buildLevel hashData (a :: b :: rest)) (j + 1)
        = nodeAt (buildLevel hashData rest) j := by
      show nodeAt (Node.interior (hashData (a.hash ++ b.hash)) a b
          :: buildLevel hashData rest) (j + 1) = _
      rw [nodeAt_cons_succ]
    rw [lhs_eq, ih, show 2 * (j + 1) = 2 * j + 2 from by omega,
      pairParent_cons_cons]

/-- Node.hash of an interior node. -/
theorem hash_interior (h : String) (l r : Node) :
    (Node.interior h l r).hash = h := rfl

/-- Correctness of one emitted step: reducing the running hash at position `i`
with the step emitted there lands on the hash of the parent at position `i/2`
of the next level.  Covers all four cases (left/right child, paired or
duplicate-last). -/
theorem verifyStep_mkStep (hashData : String → String) (cur : List Node) (i : Nat)
    (hi : i < cur.length) :
    verifyStep hashData (nodeAt cur i).hash (mkStep cur i)
      = (nodeAt (buildLevel hashData cur) (i / 2)).hash := by
  have hpar : 2 * (i / 2) < cur.length := by omega
  rw [buildLevel_nodeAt hashData cur (i / 2) hpar]
  rcases Nat.mod_two_eq_zero_or_one i with h2 | h2
  · -- i is a left child: sibling is i+1, position "right"
    have hii : 2 * (i / 2) = i := by omega
    rw [hii]
    unfold mkStep verifyStep pairParent pairRight
    simp only [h2, Nat.reduceBEq, Bool.false_eq_true, if_false, reduceIte]
    by_cases hc : i + 1 < cur.length
    · rw [if_pos hc, if_pos hc]
      rw [if_neg (by simp)]
      rfl
    · rw [if_neg hc, if_neg hc]
      rw [if_neg (by simp)]
      rfl
  · -- i is a right child: sibling is i-1 (always in bounds), position "left"
    have hii : 2 * (i / 2) = i - 1 := by omega
    rw [hii]
    unfold mkStep verifyStep pairParent pairRight
    simp only [h2, Nat.reduceBEq, if_true, reduceIte]
    have hc1 : i - 1 < cur.length := by omega
    have hc2 : i - 1 + 1 < cur.length := by omega
    rw [if_pos hc1, if_pos hc2, if_pos (by simp),
      show i - 1 + 1 = i from by omega]
    rfl

/-- The levels built above any in-range position reduce, step by step, to the
root: the full proof walk recomputes the hash of the single node of the last
level. -/
theorem foldl_proofSteps (hashData : String → String) :
    ∀ cur : List Node, ∀ i, i < cur.length →
      (proofSteps (buildLevels hashData cur) i).foldl (verifyStep hashData)
          (nodeAt cur i).hash
        = (nodeAt (lastLevel (buildLevels hashData cur)) 0).hash := by
  refine buildLevels_rec hashData ?_ ?_
  · intro cur hle i hi
    rw [buildLevels_base hashData cur hle]
    have hi0 : i = 0 := by omega
    subst hi0
    simp [proofSteps, lastLevel]
  · intro cur hgt ih i hi
    rw [buildLevels_step hashData cur hgt]
    obtain ⟨t, ht⟩ := buildLevels_cons hashData (buildLevel hashData cur)
    rw [ht]
    show (mkStep cur i :: proofSteps (buildLevel hashData cur :: t) (i / 2)).foldl
        (verifyStep hashData) (nodeAt cur i).hash = _
    rw [List.foldl_cons, verifyStep_mkStep hashData cur i hi]
    have hi2 : i / 2 < (buildLevel hashData cur).length := by
      rw [buildLevel_length]; omega
    have hfold := ih (i / 2) hi2
    rw [ht] at hfold
    rw [hfold, lastLevel_cons _ _ (List.cons_ne_nil _ _)]

/-! ## The hash-chain invariant, level shapes, odd levels -/

theorem wellHashed_leaf (hashData : String → String) (h item : String) :
    Node.wellHashed hashData (.leaf h item) := trivial

theorem wellHashed_interior_iff (hashData : String → String) (h : String)
    (l r : Node) :
    Node.wellHashed hashData (.interior h l r) ↔
      h = hashData (l.hash ++ r.hash) ∧
        Node.wellHashed hashData l ∧ Node.wellHashed hashData r :=
  Iff.rfl

/-- A pairing pass only creates interior nodes satisfying the hash-chain
invariant. -/
theorem buildLevel_wellHashed (hashData : String → String) :
    ∀ cur : List Node, (∀ n ∈ cur, Node.wellHashed hashData n) →
      ∀ n ∈ buildLevel hashData cur, Node.wellHashed hashData n
  | [], _, n, hn => by simp [buildLevel] at hn
  | [a], h, n, hn => by
    simp only [buildLevel, List.mem_singleton] at hn
    subst hn
    exact ⟨rfl, h a (by simp), h a (by simp)⟩
  | a :: b :: rest, h, n, hn => by
    simp only [buildLevel, List.mem_cons] at hn
    rcases hn with hn | hn
    · subst hn
      exact ⟨rfl, h a (by simp), h b (by simp)⟩
    · exact buildLevel_wellHashed hashData rest
        (fun m hm => h m (by simp [hm])) n hn

/-- All nodes of all levels satisfy the hash-chain invariant once the starting
level does. -/
theorem buildLevels_wellHashed (hashData : String → String) :
    ∀ cur : List Node, (∀ n ∈ cur, Node.wellHashed hashData n) →
      ∀ lvl ∈ buildLevels hashData cur, ∀ n ∈ lvl, Node.wellHashed hashData n := by
  refine buildLevels_rec hashData ?_ ?_
  · intro cur hle h lvl hlvl
    rw [buildLevels_base hashData cur hle] at hlvl
    simp only [List.mem_singleton] at hlvl
    subst hlvl
    exact h
  · intro cur hgt ih h lvl hlvl
    rw [buildLevels_step hashData cur hgt] at hlvl
    simp only [List.mem_cons] at hlvl
    rcases hlvl with hlvl | hlvl
    · subst hlvl; exact h
    · exact ih (buildLevel_wellHashed hashData cur h) lvl hlvl

theorem getLast?_cons_of_ne_nil (a : Node) (l : List Node) (h : l ≠ []) :
    (a :: l).getLast? = l.getLast? := by
  cases l with
  | nil => exact absurd rfl h
  | cons b m => exact List.getLast?_cons_cons

/-- Above an odd-length level, the last parent is the duplicate-last interior:
both children are the level's last node and its hash doubles that node's
hash. -/
theorem buildLevel_getLast_odd (hashData : String → String) :
    ∀ cur : List Node, cur.length % 2 = 1 →
      ∃ last : Node, cur.getLast? = some last ∧
        (buildLevel hashData cur).getLast? =
          some (.interior (hashData (last.hash ++ last.hash)) last last)
  | [], h => by simp at h
  | [a], _ => ⟨a, rfl, rfl⟩
  | a :: b :: rest, h => by
    have h' : rest.length % 2 = 1 := by
      simp only [List.length_cons] at h; omega
    have hrne : rest ≠ [] := by
      intro hc; rw [hc] at h'; simp at h'
    obtain ⟨last, h1, h2⟩ := buildLevel_getLast_odd hashData rest h'
    refine ⟨last, ?_, ?_⟩
    · rw [List.getLast?_cons_cons, getLast?_cons_of_ne_nil b rest hrne]
      exact h1
    · show (Node.interior (hashData (a.hash ++ b.hash)) a b
        :: buildLevel hashData rest).getLast? = _
      rw [getLast?_cons_of_ne_nil _ _ (buildLevel_ne_nil hashData rest hrne)]
      exact h2

/-- Each level of the built array is the pairing pass of the one before it. -/
theorem buildLevels_consecutive (hashData : String → String) :
    ∀ cur : List Node, ∀ k, k + 1 < (buildLevels hashData cur).length →
      (buildLevels hashData cur).getD (k + 1) []
        = buildLevel hashData ((buildLevels hashData cur).getD k []) := by
  refine buildLevels_rec hashData ?_ ?_
  · intro cur hle k hk
    rw [buildLevels_base hashData cur hle] at hk
    simp at hk
  · intro cur hgt ih k hk
    rw [buildLevels_step hashData cur hgt] at hk ⊢
    cases k with
    | zero =>
      obtain ⟨t, ht⟩ := buildLevels_cons hashData (buildLevel hashData cur)
      rw [ht]
      rw [show (1 : Nat) = 0 + 1 from rfl, List.getD_cons_succ,
        List.getD_cons_zero, List.getD_cons_zero]
    | succ k =>
      rw [List.getD_cons_succ, List.getD_cons_succ]
      exact ih k (by simpa using hk)

/-- The number of levels is `⌈log₂ n⌉ + 1` for a starting level of `n ≥ 1`
nodes (`Nat.clog 2` is the ceiling base-two logarithm). -/
theorem buildLevels_length_clog (hashData : String → String) :
    ∀ cur : List Node, cur ≠ [] →
      (buildLevels hashData cur).length = Nat.clog 2 cur.length + 1 := by
  refine buildLevels_rec hashData ?_ ?_
  · intro cur hle hne
    rw [buildLevels_base hashData cur hle]
    have h1 : cur.length = 1 := by
      cases cur with
      | nil => exact absurd rfl hne
      | cons a l => simp only [List.length_cons] at hle ⊢; omega
    rw [h1, Nat.clog_of_right_le_one le_rfl 2]
    rfl
  · intro cur hgt ih hne
    rw [buildLevels_step hashData cur hgt]
    have hbne : buildLevel hashData cur ≠ [] := buildLevel_ne_nil hashData cur hne
    rw [List.length_cons, ih hbne, buildLevel_length]
    have hstep : Nat.clog 2 cur.length = Nat.clog 2 ((cur.length + 2 - 1) / 2) + 1 :=
      Nat.clog_of_two_le (by decide) (by omega)
    have he : cur.length + 2 - 1 = cur.length + 1 := by omega
    rw [he] at hstep
    omega

/-- The loop's final level holds exactly one node. -/
theorem lastLevel_length_one (hashData : String → String) :
    ∀ cur : List Node, cur ≠ [] →
      (lastLevel (buildLevels hashData cur)).length = 1 := by
  refine buildLevels_rec hashData ?_ ?_
  · intro cur hle hne
    rw [buildLevels_base hashData cur hle]
    cases cur with
    | nil => exact absurd rfl hne
    | cons a l =>
      cases l with
      | nil => rfl
      | cons b m => simp at hle
  · intro cur hgt ih hne
    rw [buildLevels_step hashData cur hgt,
      lastLevel_cons _ _ (buildLevels_ne_nil hashData _)]
    exact ih (buildLevel_ne_nil hashData cur hne)

theorem getLast?_eq_lastLevel :
    ∀ levels : List (List Node), levels ≠ [] →
      levels.getLast? = some (lastLevel levels)
  | [], h => absurd rfl h
  | [l], _ => rfl
  | l :: l2 :: rest, _ => by
    rw [List.getLast?_cons_cons,
      getLast?_eq_lastLevel (l2 :: rest) (List.cons_ne_nil _ _)]
    rfl

/-! ## The index search -/

/-- What a successful index search means: in range, hash matches, and no
earlier index matches — the smallest matching index. -/
theorem findHashIndex_spec (itemHash : String → String) (targetHash : String) :
    ∀ (items : List String) (i : Nat),
      findHashIndex itemHash targetHash items = some i →
      i < items.length ∧ itemHash (items.getD i "") = targetHash ∧
        ∀ j, j < i → itemHash (items.getD j "") ≠ targetHash
  | [], i, h => by simp [findHashIndex] at h
  | item :: rest, i, h => by
    simp only [findHashIndex] at h
    by_cases hm : (itemHash item == targetHash) = true
    · rw [if_pos hm] at h
      simp only [Option.some.injEq] at h
      subst h
      exact ⟨by simp, by simpa using eq_of_beq hm, fun j hj => by omega⟩
    · rw [if_neg hm] at h
      cases hfr : findHashIndex itemHash targetHash rest with
      | none => rw [hfr] at h; simp at h
      | some i' =>
        rw [hfr] at h
        simp only [Option.map_some', Option.some.injEq] at h
        subst h
        obtain ⟨h1, h2, h3⟩ := findHashIndex_spec itemHash targetHash rest i' hfr
        refine ⟨by simp only [List.length_cons]; omega, by simpa using h2, ?_⟩
        intro j hj
        cases j with
        | zero =>
          rw [List.getD_cons_zero]
          exact fun he => hm (by simpa using he)
        | succ j' =>
          rw [List.getD_cons_succ]
          exact h3 j' (by omega)

/-- The search fails exactly when no item's hash equals the target hash. -/
theorem findHashIndex_eq_none_iff (itemHash : String → String) (targetHash : String) :
    ∀ items : List String,
      findHashIndex itemHash targetHash items = none ↔
        ∀ x ∈ items, itemHash x ≠ targetHash
  | [] => by simp [findHashIndex]
  | item :: rest => by
    simp only [findHashIndex]
    by_cases hm : itemHash item = targetHash
    · rw [if_pos (by simpa using hm)]
      simp only [reduceCtorEq, false_iff, not_forall]
      exact ⟨item, by simp, fun hne => hne hm⟩
    · rw [if_neg (by simpa using hm), Option.map_eq_none',
        findHashIndex_eq_none_iff itemHash targetHash rest]
      constructor
      · intro h x hx
        rcases List.mem_cons.mp hx with rfl | hx
        · exact hm
        · exact h x hx
      · intro h x hx
        exact h x (List.mem_cons_of_mem _ hx)

theorem findHashIndex_isSome_of_mem (itemHash : String → String)
    (targetHash : String) (items : List String)
    (hex : ∃ x ∈ items, itemHash x = targetHash) :
    ∃ i, findHashIndex itemHash targetHash items = some i := by
  cases hfi : findHashIndex itemHash targetHash items with
  | none =>
    obtain ⟨x, hx, he⟩ := hex
    exact absurd he ((findHashIndex_eq_none_iff itemHash targetHash items).mp hfi x hx)
  | some i => exact ⟨i, rfl⟩

/-- The leaf level reads back the items' hashes. -/
theorem nodeAt_map_leaf (itemHash : String → String) :
    ∀ (items : List String) (i : Nat), i < items.length →
      nodeAt (items.map fun item => Node.leaf (itemHash item) item) i
        = Node.leaf (itemHash (items.getD i "")) (items.getD i "")
  | [], i, hi => by simp at hi
  | a :: l, 0, _ => by
    simp only [List.map_cons]
    rw [nodeAt_cons_zero, List.getD_cons_zero]
  | a :: l, i + 1, hi => by
    simp only [List.map_cons]
    rw [nodeAt_cons_succ, List.getD_cons_succ]
    exact nodeAt_map_leaf itemHash l i (by simpa using hi)

/-- The non-empty branch of `buildMerkleTree`, as a record. -/
theorem buildMerkleTree_nonempty (hashData itemHash : String → String)
    (items : List String) (hne : items ≠ []) :
    buildMerkleTree hashData itemHash items =
      { root := (lastLevel (buildLevels hashData (items.map fun item =>
          Node.leaf (itemHash item) item))).head?
        treeLevels := some (buildLevels hashData (items.map fun item =>
          Node.leaf (itemHash item) item))
        leafCount := some items.length } := by
  unfold buildMerkleTree
  rw [if_neg (by simpa [List.isEmpty_iff] using hne)]

/-! ## Claim theorems: the tree core -/

/-- C1: for every non-empty item list and every item in it, the proof generated
from the built tree's levels verifies against the built root, including the
odd-cardinality levels where the emitted step carries the node's own hash with
position "right" and the verifier computes `hashData(h + h)` (that case is the
duplicate-last branch of `verifyStep_mkStep`). -/
theorem merkle_proof_roundtrip (hashData itemHash : String → String)
    (items : List String) (target : String) (hmem : target ∈ items) :
    ∃ (levels : List (List Node)) (root : Node) (proof : List ProofStep),
      (buildMerkleTree hashData itemHash items).treeLevels = some levels ∧
      (buildMerkleTree hashData itemHash items).root = some root ∧
      generateMerkleProof itemHash target items levels = some proof ∧
      verifyMerkleProof hashData itemHash target proof root.hash = true := by
  have hne : items ≠ [] := List.ne_nil_of_mem hmem
  have hnne : (items.map fun item => Node.leaf (itemHash item) item) ≠ [] := by
    simpa using hne
  have hlast := lastLevel_buildLevels_ne_nil hashData _ hnne
  obtain ⟨root, hroot⟩ : ∃ r,
      (lastLevel (buildLevels hashData (items.map fun item =>
        Node.leaf (itemHash item) item))).head? = some r := by
    cases hll : lastLevel (buildLevels hashData (items.map fun item =>
        Node.leaf (itemHash item) item)) with
    | nil => exact absurd hll hlast
    | cons r t => exact ⟨r, rfl⟩
  obtain ⟨index, hidx⟩ := findHashIndex_isSome_of_mem itemHash (itemHash target)
    items ⟨target, hmem, rfl⟩
  obtain ⟨hlt, hhash, _⟩ := findHashIndex_spec itemHash (itemHash target) items index hidx
  refine ⟨buildLevels hashData (items.map fun item =>
      Node.leaf (itemHash item) item), root,
    proofSteps (buildLevels hashData (items.map fun item =>
      Node.leaf (itemHash item) item)) index, ?_, ?_, ?_, ?_⟩
  · rw [buildMerkleTree_nonempty hashData itemHash items hne]
  · rw [buildMerkleTree_nonempty hashData itemHash items hne]
    exact hroot
  · unfold generateMerkleProof
    rw [if_neg (by simpa [List.isEmpty_iff] using hne), hidx]
  · unfold verifyMerkleProof
    have hilt : index < (items.map fun item =>
        Node.leaf (itemHash item) item).length := by simpa using hlt
    have hinit : (nodeAt (items.map fun item =>
        Node.leaf (itemHash item) item) index).hash = itemHash target := by
      rw [nodeAt_map_leaf itemHash items index hlt]
      exact hhash
    rw [← hinit, foldl_proofSteps hashData _ index hilt]
    have hroot0 : nodeAt (lastLevel (buildLevels hashData (items.map fun item =>
        Node.leaf (itemHash item) item))) 0 = root := by
      cases hll : lastLevel (buildLevels hashData (items.map fun item =>
          Node.leaf (itemHash item) item)) with
      | nil => exact absurd hll hlast
      | cons r t =>
        rw [hll] at hroot
        simp only [List.head?_cons, Option.some.injEq] at hroot
        rw [nodeAt_cons_zero, hroot]
    rw [hroot0]
    exact beq_self_eq_true root.hash

/-- C1 witness: the three-block odd case, proof for "c". -/
theorem merkle_proof_roundtrip_witness :
    ∃ (levels : List (List Node)) (root : Node) (proof : List ProofStep),
      (buildMerkleTree demoHash demoHash ["a", "b", "c"]).treeLevels = some levels ∧
      (buildMerkleTree demoHash demoHash ["a", "b", "c"]).root = some root ∧
      generateMerkleProof demoHash "c" ["a", "b", "c"] levels = some proof ∧
      verifyMerkleProof demoHash demoHash "c" proof root.hash = true :=
  merkle_proof_roundtrip demoHash demoHash ["a", "b", "c"] "c" (by decide)

/-- C2: every interior node produced by `buildMerkleTree`, at every level,
satisfies `node.hash = hashData(left.hash + right.hash)` (string concatenation
of the two digests, no separator), and above every odd-length level the last
parent's left and right are the very same node with hash
`hashData(last.hash + last.hash)`. -/
theorem buildMerkleTree_interior_invariant (hashData itemHash : String → String)
    (items : List String) (levels : List (List Node))
    (h : (buildMerkleTree hashData itemHash items).treeLevels = some levels) :
    (∀ lvl ∈ levels, ∀ node ∈ lvl, Node.wellHashed hashData node) ∧
    (∀ k, k + 1 < levels.length → (levels.getD k []).length % 2 = 1 →
      ∃ last : Node, (levels.getD k []).getLast? = some last ∧
        (levels.getD (k + 1) []).getLast? =
          some (.interior (hashData (last.hash ++ last.hash)) last last)) := by
  have hne : items ≠ [] := by
    intro hcon
    subst hcon
    simp [buildMerkleTree] at h
  rw [buildMerkleTree_nonempty hashData itemHash items hne] at h
  simp only [Option.some.injEq] at h
  subst h
  constructor
  · exact buildLevels_wellHashed hashData _ (by
      intro n hn
      obtain ⟨item, _, hit⟩ := List.mem_map.mp hn
      rw [← hit]
      exact wellHashed_leaf hashData _ _)
  · intro k hk hodd
    rw [buildLevels_consecutive hashData _ k hk]
    exact buildLevel_getLast_odd hashData _ hodd

/-- C2 witness: the three-block build (odd leaf level). -/
theorem buildMerkleTree_interior_invariant_witness :
    (∀ lvl ∈ (buildLevels demoHash (["a", "b", "c"].map fun item =>
        Node.leaf (demoHash item) item)),
      ∀ node ∈ lvl, Node.wellHashed demoHash node) ∧
    (∀ k, k + 1 < (buildLevels demoHash (["a", "b", "c"].map fun item =>
        Node.leaf (demoHash item) item)).length →
      ((buildLevels demoHash (["a", "b", "c"].map fun item =>
        Node.leaf (demoHash item) item)).getD k []).length % 2 = 1 →
      ∃ last : Node,
        ((buildLevels demoHash (["a", "b", "c"].map fun item =>
          Node.leaf (demoHash item) item)).getD k []).getLast? = some last ∧
        ((buildLevels demoHash (["a", "b", "c"].map fun item =>
          Node.leaf (demoHash item) item)).getD (k + 1) []).getLast? =
          some (.interior (demoHash (last.hash ++ last.hash)) last last)) :=
  buildMerkleTree_interior_invariant demoHash demoHash ["a", "b", "c"] _ rfl

/-- C3: each level holds `⌈previous/2⌉` nodes, the last level holds exactly the
one root node, and there are `⌈log₂ N⌉ + 1` levels for `N ≥ 1` items
(`Nat.clog 2` is the ceiling log; `max(N,1) = N` here since the list is
non-empty, and `(n + 1) / 2 = ⌈n/2⌉` in natural division). -/
theorem buildMerkleTree_level_shape (hashData itemHash : String → String)
    (items : List String) (levels : List (List Node)) (hne : items ≠ [])
    (h : (buildMerkleTree hashData itemHash items).treeLevels = some levels) :
    (∀ k, k + 1 < levels.length →
      (levels.getD (k + 1) []).length = ((levels.getD k []).length + 1) / 2) ∧
    (∃ lastLvl : List Node, levels.getLast? = some lastLvl ∧ lastLvl.length = 1 ∧
      (buildMerkleTree hashData itemHash items).root = lastLvl.head?) ∧
    levels.length = Nat.clog 2 items.length + 1 := by
  have hnne : (items.map fun item => Node.leaf (itemHash item) item) ≠ [] := by
    simpa using hne
  rw [buildMerkleTree_nonempty hashData itemHash items hne] at h ⊢
  simp only [Option.some.injEq] at h
  subst h
  refine ⟨?_, ?_, ?_⟩
  · intro k hk
    rw [buildLevels_consecutive hashData _ k hk, buildLevel_length]
  · refine ⟨lastLevel (buildLevels hashData (items.map fun item =>
      Node.leaf (itemHash item) item)), ?_, ?_, rfl⟩
    · exact getLast?_eq_lastLevel _ (buildLevels_ne_nil hashData _)
    · exact lastLevel_length_one hashData _ hnne
  · rw [buildLevels_length_clog hashData _ hnne]
    simp

/-- C3 witness: five items give levels of 5, 3, 2, 1 nodes and
`⌈log₂ 5⌉ + 1 = 4` levels. -/
theorem buildMerkleTree_level_shape_witness :
    (∀ k, k + 1 < (buildLevels demoHash (["a", "b", "c", "d", "e"].map fun item =>
        Node.leaf (demoHash item) item)).length →
      ((buildLevels demoHash (["a", "b", "c", "d", "e"].map fun item =>
        Node.leaf (demoHash item) item)).getD (k + 1) []).length =
        (((buildLevels demoHash (["a", "b", "c", "d", "e"].map fun item =>
          Node.leaf (demoHash item) item)).getD k []).length + 1) / 2) ∧
    (∃ lastLvl : List Node,
      (buildLevels demoHash (["a", "b", "c", "d", "e"].map fun item =>
        Node.leaf (demoHash item) item)).getLast? = some lastLvl ∧
      lastLvl.length = 1 ∧
      (buildMerkleTree demoHash demoHash ["a", "b", "c", "d", "e"]).root
        = lastLvl.head?) ∧
    (buildLevels demoHash (["a", "b", "c", "d", "e"].map fun item =>
      Node.leaf (demoHash item) item)).length
        = Nat.clog 2 (["a", "b", "c", "d", "e"] : List String).length + 1 :=
  buildMerkleTree_level_shape demoHash demoHash ["a", "b", "c", "d", "e"] _
    (by decide) rfl

/-- C4: `generateMerkleProof` computes the target's hash, returns null exactly
when no item's hash equals it (in either mode — the leaf hash of item `i` is
`itemHash` of that item), and on a match returns the proof built from the
smallest matching index. -/
theorem generateMerkleProof_lookup (itemHash : String → String) (target : String)
    (items : List String) (treeLevels : List (List Node)) :
    (generateMerkleProof itemHash target items treeLevels = none ↔
      ∀ item ∈ items, itemHash item ≠ itemHash target) ∧
    (∀ i, findHashIndex itemHash (itemHash target) items = some i →
      i < items.length ∧ itemHash (items.getD i "") = itemHash target ∧
      (∀ j, j < i → itemHash (items.getD j "") ≠ itemHash target) ∧
      generateMerkleProof itemHash target items treeLevels
        = some (proofSteps treeLevels i)) := by
  constructor
  · by_cases he : items.isEmpty = true
    · have hnil : items = [] := List.isEmpty_iff.mp he
      subst hnil
      simp [generateMerkleProof]
    · unfold generateMerkleProof
      rw [if_neg he]
      cases hfi : findHashIndex itemHash (itemHash target) items with
      | none =>
        constructor
        · intro _
          exact (findHashIndex_eq_none_iff itemHash (itemHash target) items).mp hfi
        · intro _
          rfl
      | some i =>
        constructor
        · intro hcon
          exact Option.noConfusion hcon
        · intro hall
          have hn := (findHashIndex_eq_none_iff itemHash (itemHash target) items).mpr hall
          rw [hfi] at hn
          exact Option.noConfusion hn
  · intro i hfi
    obtain ⟨h1, h2, h3⟩ := findHashIndex_spec itemHash (itemHash target) items i hfi
    refine ⟨h1, h2, h3, ?_⟩
    have hne : items ≠ [] := by
      intro hcon
      subst hcon
      simp at h1
    unfold generateMerkleProof
    rw [if_neg (by simpa [List.isEmpty_iff] using hne), hfi]

/-- C4 witness: target "b" among duplicates hashes to the smallest matching
index 1, and a missing target yields null. -/
theorem generateMerkleProof_lookup_witness :
    (generateMerkleProof demoHash "z" ["a", "b", "b"] [] = none ↔
      ∀ item ∈ (["a", "b", "b"] : List String), demoHash item ≠ demoHash "z") ∧
    (∀ i, findHashIndex demoHash (demoHash "z") ["a", "b", "b"] = some i →
      i < (["a", "b", "b"] : List String).length ∧
      demoHash ((["a", "b", "b"] : List String).getD i "") = demoHash "z" ∧
      (∀ j, j < i → demoHash ((["a", "b", "b"] : List String).getD j "") ≠ demoHash "z") ∧
      generateMerkleProof demoHash "z" ["a", "b", "b"] [] = some (proofSteps [] i)) :=
  generateMerkleProof_lookup demoHash "z" ["a", "b", "b"] []

/-- C10: zero items give the empty result — root and treeLevels both null, no
leaf count, no error — while the Empty failure is raised by the callers: the
CLI handler on no data blocks, the service orchestrator on an empty scan. -/
theorem buildMerkleTree_empty_result (hashData itemHash : String → String) :
    buildMerkleTree hashData itemHash [] =
      { root := none, treeLevels := none, leafCount := none } ∧
    handleCliCheck [] = some "No data blocks or files provided" ∧
    ∀ sourceDirectory, scanFilesCheck sourceDirectory [] =
      some ("No files found in source directory: " ++ sourceDirectory) :=
  ⟨rfl, rfl, fun _ => rfl⟩

/-! ## Claim theorems: the service -/

/-- `syncTree` on a present root hash, with the lets and the match reduced. -/
theorem syncTree_some (st : SyncState) (r : String) (n : Nat)
    (storeOk cacheUp : Bool) :
    syncTree st (some r) n storeOk cacheUp =
      if (getLatestRootHashSync st cacheUp).1 = some r then
        (.ok { written := false, rootHash := r, reason := some "unchanged"
               previousHash := none }, (getLatestRootHashSync st cacheUp).2)
      else if storeOk then
        (.ok { written := true, rootHash := r, reason := none
               previousHash := (getLatestRootHashSync st cacheUp).1 },
          if cacheUp then
            { backendTrees := r :: (getLatestRootHashSync st cacheUp).2.backendTrees
              cacheLatest := some r
              cacheMeta := r :: (getLatestRootHashSync st cacheUp).2.cacheMeta }
          else
            { (getLatestRootHashSync st cacheUp).2 with
                backendTrees := r :: (getLatestRootHashSync st cacheUp).2.backendTrees })
      else
        (.error "Failed to sync tree", (getLatestRootHashSync st cacheUp).2) := rfl

/-- The lookup never touches the backend or the metadata cache. -/
theorem getLatestRootHashSync_preserves (st : SyncState) (cacheUp : Bool) :
    (getLatestRootHashSync st cacheUp).2.backendTrees = st.backendTrees ∧
    (getLatestRootHashSync st cacheUp).2.cacheMeta = st.cacheMeta := by
  unfold getLatestRootHashSync
  cases hif : (if cacheUp then st.cacheLatest else none) with
  | some h => exact ⟨rfl, rfl⟩
  | none =>
    cases hb : st.backendTrees.head? with
    | some h =>
      cases cacheUp with
      | true => exact ⟨rfl, rfl⟩
      | false => exact ⟨rfl, rfl⟩
    | none => exact ⟨rfl, rfl⟩

/-- The lookup's only cache effect is to copy the backend's existing newest
root into the latest-root entry. -/
theorem getLatestRootHashSync_cacheLatest (st : SyncState) (cacheUp : Bool) :
    (getLatestRootHashSync st cacheUp).2.cacheLatest = st.cacheLatest ∨
    (getLatestRootHashSync st cacheUp).2.cacheLatest = st.backendTrees.head? := by
  unfold getLatestRootHashSync
  cases hif : (if cacheUp then st.cacheLatest else none) with
  | some h => exact Or.inl rfl
  | none =>
    cases hb : st.backendTrees.head? with
    | some h =>
      cases cacheUp with
      | true =>
        right
        rfl
      | false => exact Or.inl rfl
    | none => exact Or.inl rfl

/-- C5: when the cache-then-backend lookup yields the new tree's root hash,
`syncTree` returns written=false with reason "unchanged" and performs no
backend write; and a changed build followed by an identical rebuild (the cache
consistently up or consistently down across both runs) performs exactly one
backend write, growing the stored tree count by exactly one. -/
theorem syncTree_change_gate (st : SyncState) (r : String) (n n2 : Nat)
    (storeOk storeOk2 cacheUp : Bool) :
    ((getLatestRootHashSync st cacheUp).1 = some r →
      syncTree st (some r) n storeOk cacheUp =
        (.ok { written := false, rootHash := r, reason := some "unchanged"
               previousHash := none }, (getLatestRootHashSync st cacheUp).2) ∧
      (syncTree st (some r) n storeOk cacheUp).2.backendTrees = st.backendTrees) ∧
    ((getLatestRootHashSync st cacheUp).1 ≠ some r →
      (syncTree st (some r) n true cacheUp).1 =
        .ok { written := true, rootHash := r, reason := none
              previousHash := (getLatestRootHashSync st cacheUp).1 } ∧
      (syncTree st (some r) n true cacheUp).2.backendTrees = r :: st.backendTrees ∧
      (syncTree (syncTree st (some r) n true cacheUp).2 (some r) n2 storeOk2
          cacheUp).1 =
        .ok { written := false, rootHash := r, reason := some "unchanged"
              previousHash := none } ∧
      (syncTree (syncTree st (some r) n true cacheUp).2 (some r) n2 storeOk2
          cacheUp).2.backendTrees = r :: st.backendTrees ∧
      ((syncTree (syncTree st (some r) n true cacheUp).2 (some r) n2 storeOk2
          cacheUp).2.backendTrees).length = st.backendTrees.length + 1) := by
  constructor
  · intro h
    have he : syncTree st (some r) n storeOk cacheUp =
        (.ok { written := false, rootHash := r, reason := some "unchanged"
               previousHash := none }, (getLatestRootHashSync st cacheUp).2) := by
      rw [syncTree_some, if_pos h]
    rw [he]
    exact ⟨rfl, (getLatestRootHashSync_preserves st cacheUp).1⟩
  · intro hne
    have he1 : syncTree st (some r) n true cacheUp =
        (.ok { written := true, rootHash := r, reason := none
               previousHash := (getLatestRootHashSync st cacheUp).1 },
          if cacheUp then
            { backendTrees := r :: (getLatestRootHashSync st cacheUp).2.backendTrees
              cacheLatest := some r
              cacheMeta := r :: (getLatestRootHashSync st cacheUp).2.cacheMeta }
          else
            { (getLatestRootHashSync st cacheUp).2 with
                backendTrees :=
                  r :: (getLatestRootHashSync st cacheUp).2.backendTrees }) := by
      rw [syncTree_some, if_neg hne, if_pos rfl]
    have hb1 : (syncTree st (some r) n true cacheUp).2.backendTrees
        = r :: st.backendTrees := by
      rw [he1]
      cases cacheUp with
      | true => simp [(getLatestRootHashSync_preserves st true).1]
      | false => simp [(getLatestRootHashSync_preserves st false).1]
    have hlk2 : getLatestRootHashSync (syncTree st (some r) n true cacheUp).2 cacheUp
        = (some r, (syncTree st (some r) n true cacheUp).2) := by
      rw [he1]
      cases cacheUp with
      | true => rfl
      | false => rfl
    have he2 : syncTree (syncTree st (some r) n true cacheUp).2 (some r) n2 storeOk2
        cacheUp =
        (.ok { written := false, rootHash := r, reason := some "unchanged"
               previousHash := none }, (syncTree st (some r) n true cacheUp).2) := by
      rw [syncTree_some, hlk2]
      rw [if_pos rfl]
    refine ⟨by rw [he1], hb1, by rw [he2], ?_, ?_⟩
    · rw [he2]
      exact hb1
    · rw [he2, hb1]
      rfl

/-- C5 witness: an empty backend, cache up; the first sync writes "r1", the
second is gated off as unchanged and the count grows by exactly one. -/
theorem syncTree_change_gate_witness :
    (syncTree (SyncState.mk [] none []) (some "r1") 2 true true).1 =
      .ok { written := true, rootHash := "r1", reason := none
            previousHash := (getLatestRootHashSync (SyncState.mk [] none []) true).1 } ∧
    (syncTree (SyncState.mk [] none []) (some "r1") 2 true true).2.backendTrees
      = ["r1"] ∧
    (syncTree (syncTree (SyncState.mk [] none []) (some "r1") 2 true true).2
        (some "r1") 2 true true).1 =
      .ok { written := false, rootHash := "r1", reason := some "unchanged"
            previousHash := none } ∧
    (syncTree (syncTree (SyncState.mk [] none []) (some "r1") 2 true true).2
        (some "r1") 2 true true).2.backendTrees = ["r1"] ∧
    ((syncTree (syncTree (SyncState.mk [] none []) (some "r1") 2 true true).2
        (some "r1") 2 true true).2.backendTrees).length =
      (SyncState.mk [] none []).backendTrees.length + 1 :=
  (syncTree_change_gate (SyncState.mk [] none []) "r1" 2 2 true true true).2
    (by decide)

/-- C6: when the backend write inside `syncTree` fails, the error propagates,
the backend and the metadata cache are untouched, the latest-root cache entry
either is untouched or holds the backend's already-committed newest root (set
by the pre-write lookup), and the cache never advertises a root hash the
backend has not accepted: the post-store calls `setLatestRootHash` /
`setTreeMetadata` for the new root are skipped. -/
theorem syncTree_store_failure (st : SyncState) (r : String) (n : Nat)
    (cacheUp : Bool)
    (hchanged : (getLatestRootHashSync st cacheUp).1 ≠ some r) :
    (syncTree st (some r) n false cacheUp).1 = .error "Failed to sync tree" ∧
    (syncTree st (some r) n false cacheUp).2.backendTrees = st.backendTrees ∧
    (syncTree st (some r) n false cacheUp).2.cacheMeta = st.cacheMeta ∧
    ((syncTree st (some r) n false cacheUp).2.cacheLatest = st.cacheLatest ∨
      (syncTree st (some r) n false cacheUp).2.cacheLatest
        = st.backendTrees.head?) ∧
    (cacheSound st → cacheSound (syncTree st (some r) n false cacheUp).2) := by
  have he : syncTree st (some r) n false cacheUp
      = (.error "Failed to sync tree", (getLatestRootHashSync st cacheUp).2) := by
    rw [syncTree_some, if_neg hchanged]
    rfl
  rw [he]
  refine ⟨rfl, (getLatestRootHashSync_preserves st cacheUp).1,
    (getLatestRootHashSync_preserves st cacheUp).2,
    getLatestRootHashSync_cacheLatest st cacheUp, ?_⟩
  intro hs h hh
  rw [(getLatestRootHashSync_preserves st cacheUp).1]
  rcases getLatestRootHashSync_cacheLatest st cacheUp with hc | hc
  · exact hs h (by rw [← hc]; exact hh)
  · rw [hc] at hh
    cases hb : st.backendTrees with
    | nil => rw [hb] at hh; simp at hh
    | cons x t =>
      rw [hb] at hh
      simp only [List.head?_cons, Option.some.injEq] at hh
      rw [← hh]
      exact List.mem_cons_self x t

/-- C6 witness: backend holds "old", the new root "new" differs, the store
fails; the error propagates, backend and caches are as described. -/
theorem syncTree_store_failure_witness :
    (syncTree (SyncState.mk ["old"] none []) (some "new") 1 false true).1
      = .error "Failed to sync tree" ∧
    (syncTree (SyncState.mk ["old"] none []) (some "new") 1 false true).2.backendTrees
      = ["old"] ∧
    (syncTree (SyncState.mk ["old"] none []) (some "new") 1 false true).2.cacheMeta
      = [] ∧
    ((syncTree (SyncState.mk ["old"] none []) (some "new") 1 false true).2.cacheLatest
        = none ∨
      (syncTree (SyncState.mk ["old"] none []) (some "new") 1 false true).2.cacheLatest
        = (["old"] : List String).head?) ∧
    (cacheSound (SyncState.mk ["old"] none []) →
      cacheSound (syncTree (SyncState.mk ["old"] none []) (some "new") 1 false true).2) :=
  syncTree_store_failure (SyncState.mk ["old"] none []) "new" 1 true (by decide)

/-- C7 counterexample: the claim fails for a zero itemCount on the object-store
variant — with a connected client, `storeTreeData` with `itemCount = 0` raises
no error at all and performs its three writes. -/
theorem storeTreeData_zero_itemCount_cex :
    storeTreeData true "r0" 0 (S3State.mk []) =
      .ok (S3State.mk [S3Object.mk "metadata/latest-root.json" 0,
             S3Object.mk "metadata/roots/r0.json" 0,
             S3Object.mk "trees/r0.json" 0], "r0") ∧
    ∀ e, storeTreeData true "r0" 0 (S3State.mk []) ≠ .error e := by
  have h1 : storeTreeData true "r0" 0 (S3State.mk []) =
      .ok (S3State.mk [S3Object.mk "metadata/latest-root.json" 0,
             S3Object.mk "metadata/roots/r0.json" 0,
             S3Object.mk "trees/r0.json" 0], "r0") := rfl
  refine ⟨h1, ?_⟩
  intro e hcon
  rw [h1] at hcon
  exact Except.noConfusion hcon

/-- C7 (amended): both variants reject a missing root hash through `syncTree`'s
guard with the Invalid error before any write — the state is returned
untouched; a zero itemCount is not validated: `storeTreeData` performs its
three writes for every itemCount, including zero (the relational variant's
rejection of a zero item_count comes only from the database CHECK constraint at
insert time, inside the transaction, not from an Invalid error before the
write). -/
theorem syncTree_input_validation (st : SyncState) (n : Nat)
    (storeOk cacheUp : Bool) :
    syncTree st none n storeOk cacheUp =
      (.error "Invalid tree data: missing root hash", st) ∧
    ∀ (s3 : S3State) (r : String) (c : Nat),
      storeTreeData true r c s3 =
        .ok (S3State.mk (S3Object.mk "metadata/latest-root.json" c ::
              S3Object.mk ("metadata/roots/" ++ r ++ ".json") c ::
              S3Object.mk ("trees/" ++ r ++ ".json") c :: s3.objects), r) :=
  ⟨rfl, fun _ _ _ => rfl⟩

/-- C8: builds are single-flight.  While a build is in progress, a scheduler
tick returns without invoking `buildAndSync` and without queueing or touching
any state, and a manual trigger fails fast with the Busy error. -/
theorem scheduler_single_flight (st : SchedulerState) (now : Nat)
    (h : st.isBuildInProgress = true) :
    executeBuild st now = (st, false) ∧
    triggerManualBuild st now = .error "Build already in progress" := by
  unfold executeBuild triggerManualBuild
  rw [if_pos h, if_pos h]
  exact ⟨rfl, rfl⟩

/-- C8 witness: a concrete in-progress state. -/
theorem scheduler_single_flight_witness :
    executeBuild (SchedulerState.mk true true 3 (some 10)) 11
      = (SchedulerState.mk true true 3 (some 10), false) ∧
    triggerManualBuild (SchedulerState.mk true true 3 (some 10)) 11
      = .error "Build already in progress" :=
  scheduler_single_flight (SchedulerState.mk true true 3 (some 10)) 11 rfl

/-- C9: every cache operation is safe on outage.  When the cache is
disconnected or not configured, get returns null and set returns false, for
every key/value (the client outcome is arbitrary); and an error raised by the
underlying client inside get or set is caught and converted to the same
null/false results.  Both model functions are total, so no cache-originated
exception ever propagates. -/
theorem redis_safe_on_outage (isConnected hasClient : Bool)
    (g : ClientOutcome (Option String)) (s : ClientOutcome Unit) :
    ((isConnected = false ∨ hasClient = false) →
      redisGet isConnected hasClient g = none ∧
      redisSet isConnected hasClient s = false) ∧
    (redisGet isConnected hasClient .throws = none ∧
      redisSet isConnected hasClient .throws = false) := by
  constructor
  · intro h
    have hb : (!isConnected || !hasClient) = true := by
      rcases h with h | h <;> simp [h]
    unfold redisGet redisSet
    rw [if_pos hb, if_pos hb]
    exact ⟨rfl, rfl⟩
  · unfold redisGet redisSet
    by_cases hb : (!isConnected || !hasClient) = true
    · rw [if_pos hb, if_pos hb]
      exact ⟨rfl, rfl⟩
    · rw [if_neg hb, if_neg hb]
      exact ⟨rfl, rfl⟩

/-- C9 witness: outage results for a disconnected client, and caught-error
results for a connected one. -/
theorem redis_safe_on_outage_witness :
    redisGet false true (.ok (some "cached")) = none ∧
    redisSet false true (.ok ()) = false ∧
    redisGet true true .throws = none ∧
    redisSet true true .throws = false :=
  ⟨((redis_safe_on_outage false true (.ok (some "cached")) (.ok ())).1
      (Or.inl rfl)).1,
   ((redis_safe_on_outage false true (.ok (some "cached")) (.ok ())).1
      (Or.inl rfl)).2,
   (redis_safe_on_outage true true (.ok (some "cached")) (.ok ())).2.1,
   (redis_safe_on_outage true true (.ok (some "cached")) (.ok ())).2.2⟩

/-! ### Sanity checks (spec §8 scenarios A–C, with the abstract hash) -/

example :
    (buildMerkleTree demoHash demoHash ["a", "b"]).root.map Node.hash
      = some "h(h(a)h(b))" := by decide

example :
    (buildMerkleTree demoHash demoHash ["a", "b", "c"]).root.map Node.hash
      = some "h(h(h(a)h(b))h(h(c)h(c)))" := by decide

example :
    (buildMerkleTree demoHash demoHash ["only"]).root.map Node.hash
      = some "h(only)" := by decide

example :
    generateMerkleProof demoHash "c" ["a", "b", "c"]
      ((buildMerkleTree demoHash demoHash ["a", "b", "c"]).treeLevels.getD [])
      = some [⟨"h(c)", "right"⟩, ⟨"h(h(a)h(b))", "left"⟩] := by decide

example :
    verifyMerkleProof demoHash demoHash "c"
      [⟨"h(c)", "right"⟩, ⟨"h(h(a)h(b))", "left"⟩]
      "h(h(h(a)h(b))h(h(c)h(c)))" = true := by decide

end MerkleRepo
